import Mathlib

/-!
Verification of `django_elasticsearch_dsl/documents.py`.

The development shallowly embeds the module's logic:

* `queryset_iterator` (source lines 57-71): the chunked-pagination iterator.
  A Django queryset is modelled as a finite list of rows together with a
  primary-key projection `pkf : α → Int`.  `order_by('pk')` is modelled as a
  stable sort by primary key, `filter(pk__gt=last)` as a list filter and
  `[:chunk_size]` as `List.take`.  The `while` loop is modelled with an
  explicit fuel parameter (`qs.length + 1` steps always suffice, which is
  proved); the function returns both the yielded rows and the trace of all
  fetched pages (each page that the loop length-checks, including the final
  empty one that stops the loop).
* the `DocType` class (lines 74-257): document preparation, field mapping,
  action building and the serial/parallel bulk pipeline, further below.
-/

/-- The sort performed by `queryset.order_by('pk')` (source line 65 / 70):
rows ordered by ascending primary key. -/
def sortByPk {α : Type} (pkf : α → Int) (l : List α) : List α :=
  l.insertionSort (fun a b => pkf a ≤ pkf b)

/-- One page fetch of the loop body (source line 70):
`queryset.filter(pk__gt=pk).order_by('pk')[:chunk_size]`. -/
def fetchPage {α : Type} (pkf : α → Int) (qs : List α) (last : Int) (chunk : Nat) : List α :=
  (sortByPk pkf (qs.filter (fun r => decide (last < pkf r)))).take chunk

/-- The `while len(chunked_queryset) > 0` loop of `queryset_iterator`
(source lines 66-71).  Returns (yielded rows, trace of fetched pages).
`fuel` bounds the number of loop iterations; the top-level entry point
supplies enough fuel for the loop to reach its genuine exit (final empty
page), which is proved below (`qiLoop_trace_getLast`). -/
def qiLoop {α : Type} (pkf : α → Int) (qs : List α) (chunk : Nat) :
    Nat → List α → List α × List (List α)
  | _, [] => ([], [[]])
  | 0, a :: rest => (a :: rest, [a :: rest])
  | fuel+1, a :: rest =>
    let last := pkf ((a :: rest).getLast (List.cons_ne_nil a rest))
    let r := qiLoop pkf qs chunk fuel (fetchPage pkf qs last chunk)
    ((a :: rest) ++ r.1, (a :: rest) :: r.2)

/-- `queryset_iterator(queryset, chunk_size)` (source lines 57-71).  The first
page is fetched with no primary-key filter (line 65); the running `pk`
variable is only consulted from the second fetch on. -/
def queryset_iterator {α : Type} (pkf : α → Int) (qs : List α) (chunk : Nat := 1000) :
    List α × List (List α) :=
  qiLoop pkf qs chunk (qs.length + 1) ((sortByPk pkf qs).take chunk)

/-- The remaining rows visible to the loop: all of `qs` before the first
fetch, and the rows with primary key above the running `pk` afterwards. -/
def restrict {α : Type} (pkf : α → Int) (t : Option Int) (qs : List α) : List α :=
  match t with
  | none => qs
  | some last => qs.filter (fun r => decide (last < pkf r))

/-- Specification of the page-length trace of the loop: with `n` rows left,
a fetch returns `min chunk n` rows, and the loop stops at the fetch that
returns zero rows. -/
def lenTrace : Nat → Nat → Nat → List Nat
  | 0, chunk, n+1 => [min chunk (n+1)]
  | _, _, 0 => [0]
  | fuel+1, chunk, n+1 => min chunk (n+1) :: lenTrace fuel chunk (n+1 - chunk)

theorem sortByPk_perm {α : Type} (pkf : α → Int) (l : List α) :
    (sortByPk pkf l).Perm l :=
  List.perm_insertionSort _ l

theorem sortByPk_sorted {α : Type} (pkf : α → Int) (l : List α) :
    (sortByPk pkf l).Pairwise (fun a b => pkf a ≤ pkf b) := by
  haveI : IsTotal α (fun a b => pkf a ≤ pkf b) := ⟨fun a b => Int.le_total _ _⟩
  haveI : IsTrans α (fun a b => pkf a ≤ pkf b) := ⟨fun _ _ _ h1 h2 => le_trans h1 h2⟩
  exact List.sorted_insertionSort _ l

theorem sortByPk_pairwise_lt {α : Type} (pkf : α → Int) (l : List α)
    (hnd : (l.map pkf).Nodup) :
    (sortByPk pkf l).Pairwise (fun a b => pkf a < pkf b) := by
  have hnd' : ((sortByPk pkf l).map pkf).Nodup :=
    (((sortByPk_perm pkf l).map pkf).nodup_iff).mpr hnd
  have hne : (sortByPk pkf l).Pairwise (fun a b => pkf a ≠ pkf b) :=
    (List.pairwise_map).mp hnd'
  exact ((sortByPk_sorted pkf l).and hne).imp (fun h => lt_of_le_of_ne h.1 h.2)

theorem length_filter_lt_of_mem {α : Type} {p : α → Bool} {x : α} :
    ∀ {l : List α}, x ∈ l → p x = false → (l.filter p).length < l.length := by
  intro l
  induction l with
  | nil => intro h; exact absurd h (List.not_mem_nil x)
  | cons a l ih =>
    intro hx hpx
    rcases List.mem_cons.mp hx with h | h
    · subst h
      rw [List.filter_cons, hpx]
      exact Nat.lt_succ_of_le (List.length_filter_le p l)
    · rw [List.filter_cons]
      cases hpa : p a
      · simpa using Nat.lt_succ_of_lt (ih h hpx)
      · simpa using Nat.succ_lt_succ (ih h hpx)

/-- If `S` is strictly sorted by primary key and `page = S.take chunk` is
nonempty with last row `x`, then filtering `S` by `pk > pk x`
yields exactly `S.drop chunk`. -/
theorem filter_gt_last_take {α : Type} (pkf : α → Int) {S : List α} {chunk : Nat} {x : α}
    (hS : S.Pairwise (fun a b => pkf a < pkf b))
    (hx : (S.take chunk).getLast? = some x) :
    S.filter (fun r => decide (pkf x < pkf r)) = S.drop chunk := by
  have hne : S.take chunk ≠ [] := by
    intro h; rw [h] at hx; exact Option.noConfusion hx
  have hxe : (S.take chunk).getLast hne = x := by
    have h := List.getLast?_eq_getLast (S.take chunk) hne
    rw [h] at hx; exact Option.some.inj hx
  have hlast : pkf x = pkf ((S.take chunk).getLast hne) := by rw [hxe]
  rw [hlast]
  set last := pkf ((S.take chunk).getLast hne) with hlastdef
  have hsplit : S.take chunk ++ S.drop chunk = S := List.take_append_drop chunk S
  have hpair : (S.take chunk ++ S.drop chunk).Pairwise (fun a b => pkf a < pkf b) := by
    rw [hsplit]; exact hS
  have hcross := (List.pairwise_append.mp hpair).2.2
  have htake : ∀ x ∈ S.take chunk, pkf x ≤ last := by
    intro x hx
    have hsplit2 : (S.take chunk).dropLast ++ [(S.take chunk).getLast hne] = S.take chunk :=
      List.dropLast_append_getLast hne
    have hpair2 : ((S.take chunk).dropLast ++ [(S.take chunk).getLast hne]).Pairwise
        (fun a b => pkf a < pkf b) := by
      rw [hsplit2]
      exact List.Pairwise.sublist (List.take_sublist chunk S) hS
    rw [← hsplit2] at hx
    rcases List.mem_append.mp hx with h | h
    · exact le_of_lt ((List.pairwise_append.mp hpair2).2.2 x h _ (List.mem_singleton_self _))
    · rw [List.mem_singleton.mp h]
  conv_lhs => rw [← hsplit]
  rw [List.filter_append]
  have h1 : (S.take chunk).filter (fun r => decide (last < pkf r)) = [] := by
    rw [List.filter_eq_nil_iff]
    intro x hx
    simp only [decide_eq_true_eq]
    exact not_lt_of_le (htake x hx)
  have h2 : (S.drop chunk).filter (fun r => decide (last < pkf r)) = S.drop chunk := by
    rw [List.filter_eq_self]
    intro y hy
    simp only [decide_eq_true_eq]
    exact hcross _ (List.getLast_mem hne) y hy
  rw [h1, h2, List.nil_append]

/-- Filtering by a higher threshold factors through filtering by a lower one. -/
theorem filter_gt_trans {α : Type} (pkf : α → Int) (qs : List α) {u last : Int}
    (hu : u ≤ last) :
    (qs.filter (fun r => decide (u < pkf r))).filter (fun r => decide (last < pkf r))
      = qs.filter (fun r => decide (last < pkf r)) := by
  rw [List.filter_filter]
  apply List.filter_congr
  intro x _
  cases h : decide (last < pkf x)
  · simp
  · simp only [decide_eq_true_eq] at h
    simp only [Bool.true_and, decide_eq_true_eq]
    exact lt_of_le_of_lt hu h

/-- Sorting commutes with filtering, provided primary keys are distinct. -/
theorem sortByPk_filter_comm {α : Type} (pkf : α → Int) {P : List α}
    (hnd : (P.map pkf).Nodup) (p : α → Bool) :
    sortByPk pkf (P.filter p) = (sortByPk pkf P).filter p := by
  haveI : IsAntisymm α (fun a b => pkf a < pkf b) :=
    ⟨fun a b h1 h2 => absurd (h1.trans h2) (lt_irrefl _)⟩
  apply List.eq_of_perm_of_sorted (r := fun a b => pkf a < pkf b)
  · exact (sortByPk_perm pkf _).trans ((sortByPk_perm pkf P).symm.filter p)
  · apply sortByPk_pairwise_lt
    exact List.Nodup.sublist (List.Sublist.map pkf (List.filter_sublist P)) hnd
  · exact List.Pairwise.sublist (List.filter_sublist _) (sortByPk_pairwise_lt pkf P hnd)

theorem qiLoop_trace_head {α : Type} (pkf : α → Int) (qs : List α) (chunk fuel : Nat)
    (page : List α) : (qiLoop pkf qs chunk fuel page).2.head? = some page := by
  cases fuel <;> cases page <;> simp [qiLoop]

theorem qiLoop_trace_ne_nil {α : Type} (pkf : α → Int) (qs : List α) (chunk fuel : Nat)
    (page : List α) : (qiLoop pkf qs chunk fuel page).2 ≠ [] := by
  cases fuel <;> cases page <;> simp [qiLoop]

/-- Every page the loop ever handles holds at most `chunk` rows (provided the
page it starts from does, which the entry point guarantees by slicing). -/
theorem qiLoop_pages_length {α : Type} (pkf : α → Int) (qs : List α) (chunk : Nat) :
    ∀ (fuel : Nat) (page : List α), page.length ≤ chunk →
      ∀ p ∈ (qiLoop pkf qs chunk fuel page).2, p.length ≤ chunk := by
  intro fuel
  induction fuel with
  | zero =>
    intro page hp p hmem
    cases page with
    | nil => simp [qiLoop] at hmem; simp [hmem]
    | cons a rest => simp [qiLoop] at hmem; rw [hmem]; exact hp
  | succ f ih =>
    intro page hp p hmem
    cases page with
    | nil => simp [qiLoop] at hmem; simp [hmem]
    | cons a rest =>
      simp only [qiLoop, List.mem_cons] at hmem
      rcases hmem with h | h
      · rw [h]; exact hp
      · exact ih _ (List.length_take_le _ _) p h

/-- Consecutive pages in the trace: every row of a fetched page has primary
key strictly above the last row of the page before it. -/
theorem qiLoop_chain {α : Type} (pkf : α → Int) (qs : List α) (chunk : Nat) :
    ∀ (fuel : Nat) (page : List α),
      List.Chain' (fun p q => ∀ x, p.getLast? = some x → ∀ r ∈ q, pkf x < pkf r)
        (qiLoop pkf qs chunk fuel page).2 := by
  intro fuel
  induction fuel with
  | zero => intro page; cases page <;> simp [qiLoop]
  | succ f ih =>
    intro page
    cases page with
    | nil => simp [qiLoop]
    | cons a rest =>
      simp only [qiLoop]
      rw [List.chain'_cons']
      refine ⟨?_, ih _⟩
      intro y hy
      rw [Option.mem_def, qiLoop_trace_head] at hy
      have hy' : y = fetchPage pkf qs (pkf ((a :: rest).getLast (List.cons_ne_nil a rest))) chunk :=
        (Option.some.inj hy).symm
      intro x hx r hr
      have hxe : x = (a :: rest).getLast (List.cons_ne_nil a rest) := by
        rw [List.getLast?_eq_getLast _ (List.cons_ne_nil a rest)] at hx
        exact (Option.some.inj hx).symm
      rw [hy'] at hr
      have hr2 : r ∈ sortByPk pkf
          (qs.filter (fun r => decide (pkf ((a :: rest).getLast (List.cons_ne_nil a rest)) < pkf r))) :=
        (List.take_sublist _ _).subset hr
      have hr3 := ((sortByPk_perm pkf _).mem_iff).mp hr2
      have hr4 := (List.mem_filter.mp hr3).2
      rw [decide_eq_true_eq] at hr4
      rw [hxe]
      exact hr4

/-- With enough fuel the loop reaches its genuine exit: the final fetched
page recorded in the trace is empty. -/
theorem qiLoop_trace_getLast {α : Type} (pkf : α → Int) (qs : List α) (chunk : Nat) :
    ∀ (fuel : Nat) (t : Option Int), (restrict pkf t qs).length < fuel →
      (qiLoop pkf qs chunk fuel
          ((sortByPk pkf (restrict pkf t qs)).take chunk)).2.getLast? = some [] := by
  intro fuel
  induction fuel with
  | zero => intro t h; exact absurd h (Nat.not_lt_zero _)
  | succ f ih =>
    intro t h
    cases hpage : (sortByPk pkf (restrict pkf t qs)).take chunk with
    | nil => simp [qiLoop]
    | cons a rest =>
      simp only [qiLoop]
      have hne : (sortByPk pkf (restrict pkf t qs)).take chunk ≠ [] := by
        rw [hpage]; exact List.cons_ne_nil a rest
      have hxtake : (a :: rest).getLast (List.cons_ne_nil a rest)
          ∈ (sortByPk pkf (restrict pkf t qs)).take chunk := by
        rw [hpage]; exact List.getLast_mem _
      have hxP : (a :: rest).getLast (List.cons_ne_nil a rest) ∈ restrict pkf t qs :=
        ((sortByPk_perm pkf _).mem_iff).mp ((List.take_sublist _ _).subset hxtake)
      set x := (a :: rest).getLast (List.cons_ne_nil a rest) with hxdef
      have hres : restrict pkf (some (pkf x)) qs
          = (restrict pkf t qs).filter (fun r => decide (pkf x < pkf r)) := by
        cases t with
        | none => rfl
        | some u =>
          have hu : u ≤ pkf x := by
            have := (List.mem_filter.mp hxP).2
            rw [decide_eq_true_eq] at this
            exact le_of_lt this
          exact (filter_gt_trans pkf qs hu).symm
      have hdec : (restrict pkf (some (pkf x)) qs).length < f := by
        have h1 : ((restrict pkf t qs).filter (fun r => decide (pkf x < pkf r))).length
            < (restrict pkf t qs).length := by
          apply length_filter_lt_of_mem hxP
          simp
        have h2 : 1 ≤ (restrict pkf t qs).length :=
          List.length_pos.mpr (fun hnil => by rw [hnil] at hxP; exact List.not_mem_nil _ hxP)
        rw [hres]
        omega
      have hstep := ih (some (pkf x)) hdec
      have hfetch : fetchPage pkf qs (pkf x) chunk
          = (sortByPk pkf (restrict pkf (some (pkf x)) qs)).take chunk := rfl
      rcases List.exists_cons_of_ne_nil
          (qiLoop_trace_ne_nil pkf qs chunk f (fetchPage pkf qs (pkf x) chunk)) with ⟨b, L, hbl⟩
      rw [hbl, List.getLast?_cons_cons]
      rw [← hfetch, hbl] at hstep
      exact hstep

/-- Completeness of the loop on distinct primary keys: started on the first
slice of the sorted remaining rows, it yields exactly the remaining rows in
sorted order, and its page trace follows the `lenTrace` arithmetic. -/
theorem qiLoop_complete {α : Type} (pkf : α → Int) (qs : List α) (chunk : Nat)
    (hnd : (qs.map pkf).Nodup) (hc : 1 ≤ chunk) :
    ∀ (fuel : Nat) (t : Option Int), (restrict pkf t qs).length < fuel →
      (qiLoop pkf qs chunk fuel ((sortByPk pkf (restrict pkf t qs)).take chunk)).1
          = sortByPk pkf (restrict pkf t qs)
      ∧ (qiLoop pkf qs chunk fuel ((sortByPk pkf (restrict pkf t qs)).take chunk)).2.map
            List.length
          = lenTrace fuel chunk (sortByPk pkf (restrict pkf t qs)).length := by
  intro fuel
  induction fuel with
  | zero => intro t h; exact absurd h (Nat.not_lt_zero _)
  | succ f ih =>
    intro t h
    have hndP : ((restrict pkf t qs).map pkf).Nodup := by
      cases t with
      | none => exact hnd
      | some u => exact List.Nodup.sublist (List.Sublist.map pkf (List.filter_sublist qs)) hnd
    cases hpage : (sortByPk pkf (restrict pkf t qs)).take chunk with
    | nil =>
      have hSnil : sortByPk pkf (restrict pkf t qs) = [] := by
        rcases List.take_eq_nil_iff.mp hpage with h0 | h0
        · omega
        · exact h0
      constructor
      · simp [qiLoop, hSnil]
      · simp [qiLoop, hSnil, lenTrace]
    | cons a rest =>
      have hne : (sortByPk pkf (restrict pkf t qs)).take chunk ≠ [] := by
        rw [hpage]; exact List.cons_ne_nil a rest
      have hSne : sortByPk pkf (restrict pkf t qs) ≠ [] := by
        intro h0; rw [h0, List.take_nil] at hpage; exact List.noConfusion hpage
      have hx : ((sortByPk pkf (restrict pkf t qs)).take chunk).getLast?
          = some ((a :: rest).getLast (List.cons_ne_nil a rest)) := by
        rw [hpage]; exact List.getLast?_eq_getLast _ _
      set x := (a :: rest).getLast (List.cons_ne_nil a rest) with hxdef
      have hxP : x ∈ restrict pkf t qs := by
        apply ((sortByPk_perm pkf _).mem_iff).mp
        apply (List.take_sublist chunk _).subset
        rw [hpage]; exact List.getLast_mem _
      have hres : restrict pkf (some (pkf x)) qs
          = (restrict pkf t qs).filter (fun r => decide (pkf x < pkf r)) := by
        cases t with
        | none => rfl
        | some u =>
          have hu : u ≤ pkf x := by
            have hm := (List.mem_filter.mp hxP).2
            rw [decide_eq_true_eq] at hm
            exact le_of_lt hm
          exact (filter_gt_trans pkf qs hu).symm
      have hSpair : (sortByPk pkf (restrict pkf t qs)).Pairwise (fun a b => pkf a < pkf b) :=
        sortByPk_pairwise_lt pkf _ hndP
      have hdrop : sortByPk pkf (restrict pkf (some (pkf x)) qs)
          = (sortByPk pkf (restrict pkf t qs)).drop chunk := by
        rw [hres, sortByPk_filter_comm pkf hndP]
        exact filter_gt_last_take pkf hSpair hx
      have hlenP : (sortByPk pkf (restrict pkf t qs)).length = (restrict pkf t qs).length :=
        (sortByPk_perm pkf _).length_eq
      have hSpos : 1 ≤ (sortByPk pkf (restrict pkf t qs)).length :=
        List.length_pos.mpr hSne
      have hdlen : (restrict pkf (some (pkf x)) qs).length
          = (sortByPk pkf (restrict pkf t qs)).length - chunk := by
        have hd := congrArg List.length hdrop
        rw [List.length_drop] at hd
        calc (restrict pkf (some (pkf x)) qs).length
            = (sortByPk pkf (restrict pkf (some (pkf x)) qs)).length :=
              (sortByPk_perm pkf _).length_eq.symm
          _ = (sortByPk pkf (restrict pkf t qs)).length - chunk := hd
      have hdec : (restrict pkf (some (pkf x)) qs).length < f := by
        rw [hdlen]; omega
      obtain ⟨hs1, hs2⟩ := ih (some (pkf x)) hdec
      have hfetch : fetchPage pkf qs (pkf x) chunk
          = (sortByPk pkf (restrict pkf (some (pkf x)) qs)).take chunk := rfl
      constructor
      · show (a :: rest) ++ (qiLoop pkf qs chunk f (fetchPage pkf qs (pkf x) chunk)).1
            = sortByPk pkf (restrict pkf t qs)
        rw [hfetch, hs1, hdrop, ← hpage]
        exact List.take_append_drop chunk _
      · show ((a :: rest) :: (qiLoop pkf qs chunk f (fetchPage pkf qs (pkf x) chunk)).2).map
              List.length
            = lenTrace (f + 1) chunk (sortByPk pkf (restrict pkf t qs)).length
        rw [List.map_cons, hfetch, hs2, hdrop, List.length_drop]
        obtain ⟨n, hn⟩ := Nat.exists_eq_succ_of_ne_zero
          (show (sortByPk pkf (restrict pkf t qs)).length ≠ 0 by omega)
        rw [hn]
        have hlen2 : (a :: rest).length = min chunk (n + 1) := by
          rw [← hpage, List.length_take, hn]
        rw [hlen2]
        rfl

theorem qiLoop_flatten {α : Type} (pkf : α → Int) (qs : List α) (chunk : Nat) :
    ∀ (fuel : Nat) (page : List α),
      (qiLoop pkf qs chunk fuel page).1 = (qiLoop pkf qs chunk fuel page).2.flatten := by
  intro fuel
  induction fuel with
  | zero => intro page; cases page <;> simp [qiLoop]
  | succ f ih =>
    intro page
    cases page with
    | nil => simp [qiLoop]
    | cons a rest => simp [qiLoop, ih]

/-- C2: given rows with pairwise-distinct primary keys and any chunk size
at least 1, `queryset_iterator` yields every row exactly once (its output is
a permutation of the input), in strictly ascending primary-key order, and
the loop terminates: the last fetched page recorded in the trace is empty,
which is exactly the loop's exit condition. -/
theorem queryset_iterator_yields_all {α : Type} (pkf : α → Int) (qs : List α) (chunk : Nat)
    (hnd : (qs.map pkf).Nodup) (hc : 1 ≤ chunk) :
    (queryset_iterator pkf qs chunk).1.Perm qs
    ∧ ((queryset_iterator pkf qs chunk).1.map pkf).Pairwise (· < ·)
    ∧ (queryset_iterator pkf qs chunk).2.getLast? = some [] := by
  have h := qiLoop_complete pkf qs chunk hnd hc (qs.length + 1) none (Nat.lt_succ_self _)
  have h1 : (queryset_iterator pkf qs chunk).1 = sortByPk pkf qs := h.1
  refine ⟨?_, ?_, ?_⟩
  · rw [h1]; exact sortByPk_perm pkf qs
  · rw [h1]
    exact (List.pairwise_map).mpr (sortByPk_pairwise_lt pkf qs hnd)
  · exact qiLoop_trace_getLast pkf qs chunk (qs.length + 1) none (Nat.lt_succ_self _)

theorem queryset_iterator_yields_all_witness :
    (queryset_iterator (fun x : Int => x) [2, 1, 3] 2).1.Perm [2, 1, 3]
    ∧ ((queryset_iterator (fun x : Int => x) [2, 1, 3] 2).1.map (fun x : Int => x)).Pairwise
        (· < ·)
    ∧ (queryset_iterator (fun x : Int => x) [2, 1, 3] 2).2.getLast? = some [] :=
  queryset_iterator_yields_all (fun x : Int => x) [2, 1, 3] 2 (by decide) (by decide)

/-- C7 counterexample: the code fetches the FIRST page without any
primary-key filter (source line 65), so a row whose primary key is 0 (not
strictly greater than the initial `pk = 0`) is still yielded.  This refutes
the claim that every yielded row has primary key greater than 0. -/
theorem queryset_iterator_pk_gt_zero_cex :
    ¬ (∀ r ∈ (queryset_iterator (fun x : Int => x) [(0 : Int)] 1).1, 0 < r) := by
  decide

/-- C7 amended: the first fetched page is the unfiltered first slice of the
sorted rows (the initial `pk = 0` is never consulted); every fetched page
holds at most `chunk` rows; every row of each subsequently fetched page has
primary key strictly greater than the last row of the page before it (the
running `pk`, updated to each yielded row's key); the loop stops when a
fetched page is empty (the final trace entry is the empty page); and the
yielded rows are exactly the concatenation of the fetched pages. -/
theorem queryset_iterator_page_structure {α : Type} (pkf : α → Int) (qs : List α)
    (chunk : Nat) :
    (queryset_iterator pkf qs chunk).2.head? = some ((sortByPk pkf qs).take chunk)
    ∧ (∀ p ∈ (queryset_iterator pkf qs chunk).2, p.length ≤ chunk)
    ∧ List.Chain' (fun p q => ∀ x, p.getLast? = some x → ∀ r ∈ q, pkf x < pkf r)
        (queryset_iterator pkf qs chunk).2
    ∧ (queryset_iterator pkf qs chunk).2.getLast? = some []
    ∧ (queryset_iterator pkf qs chunk).1 = (queryset_iterator pkf qs chunk).2.flatten := by
  refine ⟨qiLoop_trace_head pkf qs chunk _ _,
    qiLoop_pages_length pkf qs chunk _ _ (List.length_take_le _ _),
    qiLoop_chain pkf qs chunk _ _,
    qiLoop_trace_getLast pkf qs chunk (qs.length + 1) none (Nat.lt_succ_self _),
    qiLoop_flatten pkf qs chunk _ _⟩

/-- The concrete source of §8's example: integer primary keys 1..2500. -/
def qs2500 : List Int := (List.range 2500).map (fun i : Nat => (i : Int) + 1)

theorem range_mapcast_pairwise (n : Nat) :
    ((List.range n).map (fun i : Nat => (i : Int) + 1)).Pairwise (fun a b : Int => a < b) := by
  refine List.Pairwise.map _ ?_ (List.pairwise_lt_range n)
  intro a b h
  show ((a : Int) + 1) < ((b : Int) + 1)
  omega

theorem qs2500_pairwise : qs2500.Pairwise (fun a b : Int => a < b) := by
  unfold qs2500
  exact range_mapcast_pairwise 2500

theorem qs2500_nodup : (qs2500.map (fun x : Int => x)).Nodup := by
  have h : qs2500.map (fun x : Int => x) = qs2500 := List.map_id' qs2500
  rw [h]
  exact qs2500_pairwise.imp (fun hab => ne_of_lt hab)

theorem qs2500_sort_eq : sortByPk (fun x : Int => x) qs2500 = qs2500 := by
  haveI : IsAntisymm Int (fun a b : Int => a < b) :=
    ⟨fun a b h1 h2 => absurd (h1.trans h2) (lt_irrefl _)⟩
  apply List.eq_of_perm_of_sorted (r := fun a b : Int => a < b)
  · exact sortByPk_perm _ qs2500
  · exact sortByPk_pairwise_lt (fun x : Int => x) qs2500 qs2500_nodup
  · exact qs2500_pairwise

theorem qs2500_run :
    (queryset_iterator (fun x : Int => x) qs2500 1000).1 = qs2500
    ∧ (queryset_iterator (fun x : Int => x) qs2500 1000).2.map List.length
        = [1000, 1000, 500, 0] := by
  have hres : restrict (fun x : Int => x) none qs2500 = qs2500 := rfl
  have hlt : (restrict (fun x : Int => x) none qs2500).length < qs2500.length + 1 := by
    rw [hres]; omega
  have h := qiLoop_complete (fun x : Int => x) qs2500 1000 qs2500_nodup (by norm_num)
    (qs2500.length + 1) none hlt
  have hlen : qs2500.length = 2500 := by simp [qs2500]
  constructor
  · have h1 : (queryset_iterator (fun x : Int => x) qs2500 1000).1
        = sortByPk (fun x : Int => x) qs2500 := h.1
    rw [h1, qs2500_sort_eq]
  · have h2 : (queryset_iterator (fun x : Int => x) qs2500 1000).2.map List.length
        = lenTrace (qs2500.length + 1) 1000 (sortByPk (fun x : Int => x) qs2500).length := h.2
    rw [h2, qs2500_sort_eq, hlen]
    decide

/-- C8 counterexample: the loop only stops after fetching a page that comes
back empty, so the run over primary keys 1..2500 with chunk size 1000
performs a fourth, empty fetch; the trace of fetched page sizes is not
`[1000, 1000, 500]`. -/
theorem queryset_iterator_2500_three_fetches_cex :
    ¬ ((queryset_iterator (fun x : Int => x) qs2500 1000).2.map List.length
        = [1000, 1000, 500]) := by
  rw [qs2500_run.2]
  decide

/-- C8 amended: over integer primary keys 1..2500 with chunk size 1000 the
iterator yields all 2500 rows in order, and makes exactly 4 page fetches of
sizes 1000, 1000, 500 and 0 — the final empty fetch being the one that
terminates the loop (3 non-empty pages carry the rows). -/
theorem queryset_iterator_2500_page_trace :
    (queryset_iterator (fun x : Int => x) qs2500 1000).1 = qs2500
    ∧ (queryset_iterator (fun x : Int => x) qs2500 1000).2.map List.length
        = [1000, 1000, 500, 0] :=
  ⟨qs2500_run.1, qs2500_run.2⟩

/-- A `DEDField` as `documents.py` consumes it: its `_path` attribute (a
list of attribute names; the empty list models a falsy `_path`) and its
`get_value_from_instance(instance, field_value_to_ignore)` method.  The
field classes live in `fields.py`, an external collaborator of this module,
so value extraction is abstracted as an opaque function. -/
structure DEDFieldData (ι ν : Type) where
  path : List String
  get_value_from_instance : ι → Option ι → ν

/-- One entry of `self._fields`: either a `DEDField` or some other field
object — the `isinstance(field, DEDField)` test on source line 131 is the
only thing `documents.py` asks of it. -/
inductive IndexFieldDef (ι ν : Type) where
  | ded (fd : DEDFieldData ι ν)
  | other

/-- The state of a `DocType` document that `documents.py` reads: the
declared `_fields` mapping (name to field object), the optional
user-defined `prepare_<name>_with_related` and `prepare_<name>` methods
(the `getattr` lookups of lines 137 and 141, modelled as partial maps from
field names), `self._related_instance_to_ignore`, the overridable
`should_index_object` predicate and `generate_id` function, the index name
`self._index._name`, the class name (the signal sender), and the `django`
settings `queryset_pagination` and `auto_refresh`. -/
structure DocTypeModel (ι ν : Type) where
  fields : List (String × IndexFieldDef ι ν)
  prepare_with_related : String → Option (ι → Option ι → ν)
  prepare_plain : String → Option (ι → ν)
  related_instance_to_ignore : Option ι
  should_index_object : ι → Bool
  generate_id : ι → Int
  index_name : String
  class_name : String
  queryset_pagination : Option Nat
  auto_refresh : Bool

/-- The loop of `init_prepare` (source lines 128-149) over the entries of
`self._fields`.  Returns the `_prepared_fields` list of
`(name, field, projector)` triples AND the field entries as they are left
afterwards: line 134-135 writes `field._path = [name]` in place on any
`DEDField` whose `_path` is falsy, mutating the shared field object, so the
embedding returns the updated entries explicitly.  Non-`DEDField` entries
are skipped (lines 131-132) and left untouched. -/
def init_prepare_go {ι ν : Type} (d : DocTypeModel ι ν) :
    List (String × IndexFieldDef ι ν) →
      List (String × DEDFieldData ι ν × (ι → ν)) × List (String × IndexFieldDef ι ν)
  | [] => ([], [])
  | (name, IndexFieldDef.other) :: rest =>
    let r := init_prepare_go d rest
    (r.1, (name, IndexFieldDef.other) :: r.2)
  | (name, IndexFieldDef.ded fd) :: rest =>
    let fd' := if fd.path = [] then { fd with path := [name] } else fd
    let fn : ι → ν :=
      match d.prepare_with_related name with
      | some prep_func => fun inst => prep_func inst d.related_instance_to_ignore
      | none =>
        match d.prepare_plain name with
        | some prep_func => prep_func
        | none => fun inst => fd'.get_value_from_instance inst d.related_instance_to_ignore
    let r := init_prepare_go d rest
    ((name, fd', fn) :: r.1, (name, IndexFieldDef.ded fd') :: r.2)

/-- `DocType.init_prepare` (source lines 122-149), run once per document
instance by `__init__`. -/
def init_prepare {ι ν : Type} (d : DocTypeModel ι ν) :
    List (String × DEDFieldData ι ν × (ι → ν)) × List (String × IndexFieldDef ι ν) :=
  init_prepare_go d d.fields

/-- `DocType.prepare` (source lines 151-160): apply each stored projector to
the model instance and collect the results into a mapping keyed by field
name (`self._prepared_fields` is passed explicitly). -/
def prepare {ι ν : Type} (prepared : List (String × DEDFieldData ι ν × (ι → ν)))
    (object_instance : ι) : List (String × ν) :=
  prepared.map (fun t => (t.1, t.2.2 object_instance))

/-- The Django model field classes that appear as keys of the mapping table
(source lines 30-54), plus `otherClass` for every class that is not a key —
including subclasses of mapped classes, since the table is looked up by the
exact class `model_field.__class__`. -/
inductive DjangoModelFieldClass where
  | AutoField | BigAutoField | BigIntegerField | BooleanField | CharField
  | DateField | DateTimeField | DecimalField | EmailField | FileField
  | FilePathField | FloatField | ImageField | IntegerField | NullBooleanField
  | PositiveIntegerField | PositiveSmallIntegerField | SlugField
  | SmallIntegerField | TextField | TimeField | URLField | UUIDField
  | otherClass (clsname : String)
deriving DecidableEq

/-- The elasticsearch field classes the table maps to (imported from
`fields.py`, lines 15-26). -/
inductive DEDFieldClass where
  | BooleanField | DateField | DoubleField | FileField | IntegerField
  | KeywordField | LongField | ShortField | TextField | TimeField
deriving DecidableEq

/-- `model_field_class_to_field_class` (source lines 30-54), in source
order. -/
def model_field_class_to_field_class : List (DjangoModelFieldClass × DEDFieldClass) :=
  [(.AutoField, .IntegerField),
   (.BigAutoField, .LongField),
   (.BigIntegerField, .LongField),
   (.BooleanField, .BooleanField),
   (.CharField, .TextField),
   (.DateField, .DateField),
   (.DateTimeField, .DateField),
   (.DecimalField, .DoubleField),
   (.EmailField, .TextField),
   (.FileField, .FileField),
   (.FilePathField, .KeywordField),
   (.FloatField, .DoubleField),
   (.ImageField, .FileField),
   (.IntegerField, .IntegerField),
   (.NullBooleanField, .BooleanField),
   (.PositiveIntegerField, .IntegerField),
   (.PositiveSmallIntegerField, .ShortField),
   (.SlugField, .KeywordField),
   (.SmallIntegerField, .ShortField),
   (.TextField, .TextField),
   (.TimeField, .TimeField),
   (.URLField, .TextField),
   (.UUIDField, .KeywordField)]

/-- The typed error raised by `to_field` (imported from `exceptions.py`). -/
structure ModelFieldNotMappedError where
  msg : String
deriving DecidableEq

/-- A constructed elasticsearch field instance: the class that was called
and the `attr=field_name` keyword it was called with. -/
structure ESField where
  cls : DEDFieldClass
  attr : String
deriving DecidableEq

/-- `DocType.to_field` (source lines 162-176): look the exact model field
class up in the static table and call the mapped class with
`attr=field_name`; a `KeyError` becomes `ModelFieldNotMappedError`. -/
def to_field (field_name : String) (model_field : DjangoModelFieldClass) :
    Except ModelFieldNotMappedError ESField :=
  match model_field_class_to_field_class.lookup model_field with
  | some fieldCls => Except.ok { cls := fieldCls, attr := field_name }
  | none => Except.error
      { msg := "Cannot convert model field " ++ field_name ++ " to an Elasticsearch field!" }

/-- One bulk-operation descriptor as built by `_prepare_action`
(source lines 209-217). -/
structure ActionDescriptor (ν : Type) where
  op_type : String
  index : String
  id : Int
  source : Option (List (String × ν))

/-- The relevant behavior of the external search client
(`elasticsearch.helpers`, an abstract collaborator): `bulk` is a blocking
call from the cluster state and the submitted actions (with the forwarded
`chunk_size` and `refresh` keyword arguments) to a `(success_count, errors)`
response and a new cluster state; `parallel_bulk` is LAZY — it returns a
sequence of per-chunk results, each of which, when forced, performs that
chunk's side effect on the cluster state (modelled as a state
transformer). -/
structure ESClient (ν σ : Type) where
  bulk : σ → List (ActionDescriptor ν) → Option Nat → Option Bool → (Nat × List String) × σ
  parallel_bulk : List (ActionDescriptor ν) → Option Nat → Option Bool → List (σ → σ)

/-- Payload of the `post_index` signal as sent on source lines 181-186:
`sender=self.__class__` (the class name), `instance=self` (the document),
the submitted actions and the bulk response. -/
structure PostIndexPayload (ι ν : Type) where
  sender : String
  doc : DocTypeModel ι ν
  actions : List (ActionDescriptor ν)
  response : Nat × List String

/-- Everything observable about one bulk submission: the value returned to
the caller plus the effects — the final cluster state, the serial `bulk`
calls made (actions with forwarded keyword arguments), the `parallel_bulk`
calls made (actions with the resolved `chunk_size` and `refresh`), and the
`post_index` signals fired. -/
structure BulkResult (ι ν σ : Type) where
  response : Nat × List String
  state : σ
  bulk_calls : List (List (ActionDescriptor ν) × Option Nat × Option Bool)
  parallel_calls : List (List (ActionDescriptor ν) × Option Nat × Option Bool)
  signals : List (PostIndexPayload ι ν)

/-- `DocType.generate_id` (source lines 200-207) defaults to the object's
primary key and is overridable, so the embedding carries it as a field of
`DocTypeModel`; `_prepare_action` (source lines 209-217) builds one
descriptor, with `_source` null exactly for `'delete'`. -/
def _prepare_action {ι ν : Type} (d : DocTypeModel ι ν) (object_instance : ι)
    (action : String) : ActionDescriptor ν :=
  { op_type := action
    index := d.index_name
    id := d.generate_id object_instance
    source :=
      if action ≠ "delete" then some (prepare (init_prepare d).1 object_instance) else none }

/-- `DocType._get_actions` (source lines 219-222): one descriptor per object
that passes `action == 'delete' or self.should_index_object(obj)`. -/
def _get_actions {ι ν : Type} (d : DocTypeModel ι ν) (object_list : List ι)
    (action : String) : List (ActionDescriptor ν) :=
  object_list.filterMap (fun object_instance =>
    if action = "delete" ∨ d.should_index_object object_instance then
      some (_prepare_action d object_instance action)
    else none)

/-- `DocType.bulk` (source lines 178-187): one blocking client bulk call,
then the `post_index` signal, then return the response. -/
def DocType.bulk {ι ν σ : Type} (d : DocTypeModel ι ν) (client : ESClient ν σ) (st : σ)
    (actions : List (ActionDescriptor ν)) (chunk_size : Option Nat)
    (refresh : Option Bool) : BulkResult ι ν σ :=
  let rs := client.bulk st actions chunk_size refresh
  { response := rs.1
    state := rs.2
    bulk_calls := [(actions, chunk_size, refresh)]
    parallel_calls := []
    signals := [{ sender := d.class_name, doc := d, actions := actions, response := rs.1 }] }

/-- `DocType.parallel_bulk` (source lines 189-198): default the worker
`chunk_size` to `self.django.queryset_pagination` when that is set and the
caller passed none; create the client's lazy `parallel_bulk` generator;
drain it eagerly with `deque(..., maxlen=0)` (modelled by folding every
per-chunk state effect over the cluster state), discarding the per-chunk
results; return the fake response `(1, [])`.  No signal is fired. -/
def DocType.parallel_bulk {ι ν σ : Type} (d : DocTypeModel ι ν) (client : ESClient ν σ)
    (st : σ) (actions : List (ActionDescriptor ν)) (chunk_size : Option Nat)
    (refresh : Option Bool) : BulkResult ι ν σ :=
  let cs := if d.queryset_pagination.isSome && chunk_size.isNone
    then d.queryset_pagination else chunk_size
  let bulk_actions := client.parallel_bulk actions cs refresh
  { response := (1, [])
    state := bulk_actions.foldl (fun s f => f s) st
    bulk_calls := []
    parallel_calls := [(actions, cs, refresh)]
    signals := [] }

/-- `DocType._bulk` (source lines 224-230): dispatch on the `parallel`
flag. -/
def DocType._bulk {ι ν σ : Type} (d : DocTypeModel ι ν) (client : ESClient ν σ) (st : σ)
    (actions : List (ActionDescriptor ν)) (parallel : Bool) (chunk_size : Option Nat)
    (refresh : Option Bool) : BulkResult ι ν σ :=
  if parallel then DocType.parallel_bulk d client st actions chunk_size refresh
  else DocType.bulk d client st actions chunk_size refresh

/-- The argument of `update`: a single model instance or an iterable of
them (the `isinstance(thing, models.Model)` test on source line 248). -/
inductive Thing (ι : Type) where
  | one (x : ι)
  | many (xs : List ι)

/-- The input normalization of `update` (source lines 248-251): a single
model instance becomes a one-element list. -/
def normalizeThing {ι : Type} : Thing ι → List ι
  | Thing.one x => [x]
  | Thing.many xs => xs

/-- The `refresh` keyword resolution of `update` (source lines 243-246):
an explicit argument wins; else `self.django.auto_refresh` (when truthy) is
forwarded; else the keyword is absent. -/
def resolveRefresh {ι ν : Type} (d : DocTypeModel ι ν) (refresh : Option Bool) :
    Option Bool :=
  match refresh with
  | some r => some r
  | none => if d.auto_refresh then some d.auto_refresh else none

/-- `DocType.update` (source lines 239-257): resolve `refresh`, normalize a
single instance to a one-element list, build the actions, submit through
`_bulk`. -/
def DocType.update {ι ν σ : Type} (d : DocTypeModel ι ν) (client : ESClient ν σ) (st : σ)
    (thing : Thing ι) (action : String) (parallel : Bool) (chunk_size : Option Nat)
    (refresh : Option Bool) : BulkResult ι ν σ :=
  DocType._bulk d client st (_get_actions d (normalizeThing thing) action) parallel
    chunk_size (resolveRefresh d refresh)

theorem init_prepare_go_should {ι ν : Type} (d : DocTypeModel ι ν) (p : ι → Bool) :
    ∀ l, init_prepare_go { d with should_index_object := p } l = init_prepare_go d l := by
  intro l
  induction l with
  | nil => rfl
  | cons hd tl ih =>
    obtain ⟨name, fdef⟩ := hd
    cases fdef with
    | other => simp [init_prepare_go, ih]
    | ded fd => simp [init_prepare_go, ih]

theorem _prepare_action_should {ι ν : Type} (d : DocTypeModel ι ν) (p : ι → Bool)
    (object_instance : ι) (action : String) :
    _prepare_action { d with should_index_object := p } object_instance action
      = _prepare_action d object_instance action := by
  simp [_prepare_action, init_prepare, init_prepare_go_should]

theorem _get_actions_delete {ι ν : Type} (d : DocTypeModel ι ν) (object_list : List ι) :
    _get_actions d object_list "delete"
      = object_list.map (fun o => _prepare_action d o "delete") := by
  induction object_list with
  | nil => rfl
  | cons o os ih =>
    unfold _get_actions at ih ⊢
    simpa [List.filterMap_cons] using ih

theorem _get_actions_not_delete {ι ν : Type} (d : DocTypeModel ι ν) (object_list : List ι)
    (action : String) (h : action ≠ "delete") :
    _get_actions d object_list action
      = (object_list.filter d.should_index_object).map (fun o => _prepare_action d o action) := by
  induction object_list with
  | nil => rfl
  | cons o os ih =>
    unfold _get_actions at ih ⊢
    cases hp : d.should_index_object o with
    | true => simpa [List.filterMap_cons, List.filter_cons, hp, h] using ih
    | false => simpa [List.filterMap_cons, List.filter_cons, hp, h] using ih

theorem init_prepare_go_proj {ι ν : Type} (d : DocTypeModel ι ν) :
    ∀ l, ∀ t ∈ (init_prepare_go d l).1,
      t.2.2 = match d.prepare_with_related t.1 with
        | some prep_func => fun inst => prep_func inst d.related_instance_to_ignore
        | none =>
          match d.prepare_plain t.1 with
          | some prep_func => prep_func
          | none => fun inst => t.2.1.get_value_from_instance inst d.related_instance_to_ignore
      := by
  intro l
  induction l with
  | nil => intro t ht; exact absurd ht (List.not_mem_nil t)
  | cons hd tl ih =>
    obtain ⟨name, fdef⟩ := hd
    intro t ht
    cases fdef with
    | other =>
      exact ih t (by simpa [init_prepare_go] using ht)
    | ded fd =>
      simp only [init_prepare_go] at ht
      rcases List.mem_cons.mp ht with rfl | hmem
      · cases h1 : d.prepare_with_related name with
        | some prep_func => simp [h1]
        | none =>
          cases h2 : d.prepare_plain name with
          | some prep_func => simp [h1, h2]
          | none => simp [h1, h2]
      · exact ih t hmem

theorem init_prepare_go_keys {ι ν : Type} (d : DocTypeModel ι ν) :
    ∀ l, ∀ t ∈ (init_prepare_go d l).1,
      ∃ fd, (t.1, IndexFieldDef.ded fd) ∈ l := by
  intro l
  induction l with
  | nil => intro t ht; exact absurd ht (List.not_mem_nil t)
  | cons hd tl ih =>
    obtain ⟨name, fdef⟩ := hd
    intro t ht
    cases fdef with
    | other =>
      obtain ⟨fd, hfd⟩ := ih t (by simpa [init_prepare_go] using ht)
      exact ⟨fd, List.mem_cons_of_mem _ hfd⟩
    | ded fd =>
      simp only [init_prepare_go] at ht
      rcases List.mem_cons.mp ht with rfl | hmem
      · exact ⟨fd, List.mem_cons_self _ _⟩
      · obtain ⟨fd0, hfd0⟩ := ih t hmem
        exact ⟨fd0, List.mem_cons_of_mem _ hfd0⟩

theorem nodup_keys_unique {κ β : Type} {l : List (κ × β)}
    (h : (l.map Prod.fst).Nodup) {k : κ} {b1 b2 : β}
    (h1 : (k, b1) ∈ l) (h2 : (k, b2) ∈ l) : b1 = b2 := by
  induction l with
  | nil => exact absurd h1 (List.not_mem_nil _)
  | cons hd tl ih =>
    rw [List.map_cons, List.nodup_cons] at h
    rcases List.mem_cons.mp h1 with e1 | m1 <;> rcases List.mem_cons.mp h2 with e2 | m2
    · exact congrArg Prod.snd (e1.trans e2.symm)
    · exfalso
      have hk : hd.1 = k := by rw [← e1]
      apply h.1
      rw [hk]
      exact List.mem_map_of_mem Prod.fst m2
    · exfalso
      have hk : hd.1 = k := by rw [← e2]
      apply h.1
      rw [hk]
      exact List.mem_map_of_mem Prod.fst m1
    · exact ih h.2 m1 m2

theorem lookup_prepare_none {ι ν : Type} {name : String}
    (prepared : List (String × DEDFieldData ι ν × (ι → ν))) (object_instance : ι)
    (h : ∀ t ∈ prepared, t.1 ≠ name) :
    (prepare prepared object_instance).lookup name = none := by
  induction prepared with
  | nil => rfl
  | cons t ts ih =>
    have hne : (name == t.1) = false := by
      rw [beq_eq_false_iff_ne]
      exact fun e => h t (List.mem_cons_self t ts) e.symm
    simp only [prepare, List.map_cons, List.lookup, hne]
    exact ih (fun u hu => h u (List.mem_cons_of_mem t hu))

theorem init_prepare_go_paths {ι ν : Type} (d : DocTypeModel ι ν) :
    ∀ l, ∀ e ∈ (init_prepare_go d l).2, ∀ fd, e.2 = IndexFieldDef.ded fd → fd.path ≠ [] := by
  intro l
  induction l with
  | nil => intro e he; exact absurd he (List.not_mem_nil e)
  | cons hd tl ih =>
    obtain ⟨name, fdef⟩ := hd
    intro e he fd hfd
    cases fdef with
    | other =>
      simp only [init_prepare_go] at he
      rcases List.mem_cons.mp he with rfl | hmem
      · exact absurd hfd (by simp)
      · exact ih e hmem fd hfd
    | ded fd0 =>
      simp only [init_prepare_go] at he
      rcases List.mem_cons.mp he with rfl | hmem
      · have hfd2 : (if fd0.path = [] then { fd0 with path := [name] } else fd0) = fd := by
          injection hfd
        rw [← hfd2]
        by_cases hp : fd0.path = []
        · rw [if_pos hp]; simp
        · rw [if_neg hp]; exact hp
      · exact ih e hmem fd hfd

theorem init_prepare_go_frame {ι ν : Type} (d : DocTypeModel ι ν) :
    ∀ l, (∀ e ∈ l, ∀ fd, e.2 = IndexFieldDef.ded fd → fd.path ≠ []) →
      (init_prepare_go d l).2 = l := by
  intro l
  induction l with
  | nil => intro _; rfl
  | cons hd tl ih =>
    intro hp
    obtain ⟨name, fdef⟩ := hd
    have htl := ih (fun e he fd hfd => hp e (List.mem_cons_of_mem _ he) fd hfd)
    cases fdef with
    | other => simp [init_prepare_go, htl]
    | ded fd =>
      have hne : fd.path ≠ [] := hp (name, IndexFieldDef.ded fd) (List.mem_cons_self _ _) fd rfl
      simp [init_prepare_go, htl, hne]

/-- C1: for every sequence of rows: with `action = 'delete'`, `_get_actions`
emits one descriptor per row, each with `_source = None`, and the result
does not depend on `should_index_object` at all (it is never consulted);
with any other action, a descriptor (whose `_source = prepare(row)`) is
emitted for a row exactly when `should_index_object(row)` returns true. -/
theorem _get_actions_spec {ι ν : Type} (d : DocTypeModel ι ν) (object_list : List ι)
    (action : String) :
    (_get_actions d object_list "delete"
        = object_list.map (fun o => _prepare_action d o "delete"))
    ∧ (∀ o, (_prepare_action d o "delete").source = none)
    ∧ (∀ p : ι → Bool,
        _get_actions { d with should_index_object := p } object_list "delete"
          = _get_actions d object_list "delete")
    ∧ (action ≠ "delete" →
        _get_actions d object_list action
            = (object_list.filter d.should_index_object).map
                (fun o => _prepare_action d o action)
          ∧ ∀ o, (_prepare_action d o action).source
              = some (prepare (init_prepare d).1 o)) := by
  refine ⟨_get_actions_delete d object_list, ?_, ?_, ?_⟩
  · intro o
    simp [_prepare_action]
  · intro p
    rw [_get_actions_delete, _get_actions_delete]
    have hfn : (fun o : ι => _prepare_action { d with should_index_object := p } o "delete")
        = fun o => _prepare_action d o "delete" :=
      funext fun o => _prepare_action_should d p o "delete"
    rw [hfn]
  · intro hne
    refine ⟨_get_actions_not_delete d object_list action hne, ?_⟩
    intro o
    simp [_prepare_action, hne]

/-- C3: the projector stored by `init_prepare` for a prepared field is
resolved by priority — `prepare_<name>_with_related` bound with the related
instance to ignore if defined, else `prepare_<name>` if defined, else the
field's own `get_value_from_instance` bound with the related instance to
ignore — and `prepare(row)` just applies each stored projector to the row,
collecting `(name, value)` pairs. -/
theorem init_prepare_projector_priority {ι ν : Type} (d : DocTypeModel ι ν) :
    (∀ t ∈ (init_prepare d).1,
      t.2.2 = match d.prepare_with_related t.1 with
        | some prep_func => fun inst => prep_func inst d.related_instance_to_ignore
        | none =>
          match d.prepare_plain t.1 with
          | some prep_func => prep_func
          | none => fun inst => t.2.1.get_value_from_instance inst d.related_instance_to_ignore)
    ∧ ∀ object_instance, prepare (init_prepare d).1 object_instance
        = (init_prepare d).1.map (fun t => (t.1, t.2.2 object_instance)) :=
  ⟨init_prepare_go_proj d d.fields, fun _ => rfl⟩

/-- C4: `to_field` maps a model field whose exact class is a key of the
static table to an instance of the mapped field class (with
`attr=field_name`), and raises `ModelFieldNotMappedError` for every class
absent from the table — in particular for `otherClass`, which stands for
any unmapped class, subclasses of mapped classes included: there is no
inheritance-aware fallback and no default. -/
theorem to_field_spec :
    (∀ (field_name : String) (mf : DjangoModelFieldClass) (fc : DEDFieldClass),
      model_field_class_to_field_class.lookup mf = some fc →
        to_field field_name mf = Except.ok { cls := fc, attr := field_name })
    ∧ (∀ (field_name : String) (mf : DjangoModelFieldClass),
      model_field_class_to_field_class.lookup mf = none →
        to_field field_name mf = Except.error
          { msg := "Cannot convert model field " ++ field_name
              ++ " to an Elasticsearch field!" })
    ∧ (∀ (field_name clsname : String),
      to_field field_name (DjangoModelFieldClass.otherClass clsname) = Except.error
        { msg := "Cannot convert model field " ++ field_name
            ++ " to an Elasticsearch field!" }) := by
  refine ⟨?_, ?_, ?_⟩
  · intro field_name mf fc hl
    unfold to_field
    rw [hl]
  · intro field_name mf hl
    unfold to_field
    rw [hl]
  · intro field_name clsname
    rfl

/-- C9 amended: after `init_prepare` every `DEDField` entry has a nonempty
`_path`, and if every `DEDField` entry already had a nonempty `_path`
(as is the case after any earlier construction), `init_prepare` leaves the
field definitions exactly unchanged.  (The unconditional immutability the
claim states is refuted by `init_prepare_mutates_path_cex`: a `DEDField`
with falsy `_path` gets `_path = [name]` written in place.) -/
theorem init_prepare_fields_frame {ι ν : Type} (d : DocTypeModel ι ν) :
    (∀ e ∈ (init_prepare d).2, ∀ fd, e.2 = IndexFieldDef.ded fd → fd.path ≠ [])
    ∧ ((∀ e ∈ d.fields, ∀ fd, e.2 = IndexFieldDef.ded fd → fd.path ≠ []) →
        (init_prepare d).2 = d.fields) :=
  ⟨init_prepare_go_paths d d.fields, init_prepare_go_frame d d.fields⟩

/-- C10: only `DEDField` entries of `_fields` reach the prepared-field
list: every prepared triple's name belongs to a `DEDField` entry, so for a
name declared (uniquely) as a non-`DEDField`, no triple carries that name
and `prepare(row)` never contains it as a key. -/
theorem init_prepare_skips_non_ded {ι ν : Type} (d : DocTypeModel ι ν) (name : String)
    (hnd : (d.fields.map Prod.fst).Nodup)
    (hmem : (name, (IndexFieldDef.other : IndexFieldDef ι ν)) ∈ d.fields) :
    (∀ t ∈ (init_prepare d).1, t.1 ≠ name)
    ∧ ∀ object_instance,
        (prepare (init_prepare d).1 object_instance).lookup name = none := by
  have hkeys : ∀ t ∈ (init_prepare d).1, t.1 ≠ name := by
    intro t ht he
    obtain ⟨fd, hfd⟩ := init_prepare_go_keys d d.fields t ht
    rw [he] at hfd
    have hdd := nodup_keys_unique hnd hfd hmem
    exact IndexFieldDef.noConfusion hdd
  exact ⟨hkeys, fun object_instance => lookup_prepare_none _ _ hkeys⟩

/-- C5: `update` with `parallel = true` returns the synthetic placeholder
`(1, [])`, fires no `post_index` signal, makes no blocking bulk call, makes
exactly one `parallel_bulk` call whose worker chunk size is the caller's
when supplied and otherwise defaults to the document's configured
`queryset_pagination` (when set), and eagerly drains the client's lazy
per-chunk results: the final cluster state is the fold of every per-chunk
effect of that one recorded call. -/
theorem update_parallel_spec {ι ν σ : Type} (d : DocTypeModel ι ν) (client : ESClient ν σ)
    (st : σ) (thing : Thing ι) (action : String) (chunk_size : Option Nat)
    (refresh : Option Bool) :
    (DocType.update d client st thing action true chunk_size refresh).response = (1, [])
    ∧ (DocType.update d client st thing action true chunk_size refresh).signals = []
    ∧ (DocType.update d client st thing action true chunk_size refresh).bulk_calls = []
    ∧ (∀ c, chunk_size = some c →
        (DocType.update d client st thing action true chunk_size refresh).parallel_calls
          = [(_get_actions d (normalizeThing thing) action, some c,
              resolveRefresh d refresh)])
    ∧ (∀ qp, chunk_size = none → d.queryset_pagination = some qp →
        (DocType.update d client st thing action true chunk_size refresh).parallel_calls
          = [(_get_actions d (normalizeThing thing) action, some qp,
              resolveRefresh d refresh)])
    ∧ (∀ acts cs kwr,
        (DocType.update d client st thing action true chunk_size refresh).parallel_calls
          = [(acts, cs, kwr)] →
        (DocType.update d client st thing action true chunk_size refresh).state
          = (client.parallel_bulk acts cs kwr).foldl (fun s f => f s) st) := by
  refine ⟨rfl, rfl, rfl, ?_, ?_, ?_⟩
  · intro c hc
    subst hc
    simp [DocType.update, DocType._bulk, DocType.parallel_bulk]
  · intro qp hc hqp
    subst hc
    simp [DocType.update, DocType._bulk, DocType.parallel_bulk, hqp]
  · intro acts cs kwr hpc
    simp only [DocType.update, DocType._bulk, DocType.parallel_bulk, if_pos] at hpc ⊢
    rw [List.cons.injEq] at hpc
    obtain ⟨hhd, -⟩ := hpc
    rw [Prod.mk.injEq] at hhd
    obtain ⟨h1, hhd2⟩ := hhd
    rw [Prod.mk.injEq] at hhd2
    obtain ⟨h2, h3⟩ := hhd2
    rw [← h1, ← h2, ← h3]

/-- C6 amended: serial `update` on a single model instance accepted by
`should_index_object` (as the default always-true predicate does) builds
exactly one action descriptor, makes exactly one blocking bulk call with
it, fires exactly one `post_index` signal carrying the sender class, the
document, the actions and the client's response, and returns that response;
no parallel call is made. -/
theorem update_serial_single_spec {ι ν σ : Type} (d : DocTypeModel ι ν)
    (client : ESClient ν σ) (st : σ) (x : ι) (chunk_size : Option Nat)
    (refresh : Option Bool) (hs : d.should_index_object x = true) :
    _get_actions d [x] "index" = [_prepare_action d x "index"]
    ∧ (DocType.update d client st (Thing.one x) "index" false chunk_size refresh).bulk_calls
        = [([_prepare_action d x "index"], chunk_size, resolveRefresh d refresh)]
    ∧ (DocType.update d client st (Thing.one x) "index" false chunk_size refresh).parallel_calls
        = []
    ∧ (DocType.update d client st (Thing.one x) "index" false chunk_size refresh).signals
        = [{ sender := d.class_name, doc := d, actions := [_prepare_action d x "index"],
             response := (client.bulk st [_prepare_action d x "index"] chunk_size
               (resolveRefresh d refresh)).1 }]
    ∧ (DocType.update d client st (Thing.one x) "index" false chunk_size refresh).response
        = (client.bulk st [_prepare_action d x "index"] chunk_size
            (resolveRefresh d refresh)).1 := by
  have hacts : _get_actions d [x] "index" = [_prepare_action d x "index"] := by
    simp [_get_actions, List.filterMap_cons, hs]
  refine ⟨hacts, ?_, ?_, ?_, ?_⟩ <;>
    simp [DocType.update, DocType._bulk, DocType.bulk, normalizeThing, hacts]

/-- A `DEDField` with a falsy `_path`, as declared before any document
instance is constructed. -/
def sampleField : DEDFieldData Int Int :=
  { path := [], get_value_from_instance := fun i _ => i }

/-- A concrete document configuration used for counterexamples and
witnesses: one declared `DEDField` named `title` with empty path, no custom
preparers, the default always-true `should_index_object`, `generate_id`
the identity, pagination 7, auto refresh on. -/
def sampleDoc : DocTypeModel Int Int :=
  { fields := [("title", IndexFieldDef.ded sampleField)]
    prepare_with_related := fun _ => none
    prepare_plain := fun _ => none
    related_instance_to_ignore := none
    should_index_object := fun _ => true
    generate_id := fun i => i
    index_name := "example_index"
    class_name := "ExampleDocument"
    queryset_pagination := some 7
    auto_refresh := true }

/-- A concrete search client over `Nat` cluster states: the blocking bulk
call reports one success per action and bumps the state; the lazy parallel
generator has two per-chunk effects. -/
def sampleClient : ESClient Int Nat :=
  { bulk := fun st acts _ _ => ((acts.length, []), st + 1)
    parallel_bulk := fun _ _ _ => [fun s => s + 1, fun s => s + 10] }

/-- C9 counterexample: constructing a document (running `init_prepare`)
over a `DEDField` whose `_path` is falsy writes `_path = [name]` into the
shared field definition: the field definitions after `init_prepare` differ
from the declared ones, refuting the claim that they are left unchanged. -/
theorem init_prepare_mutates_path_cex : (init_prepare sampleDoc).2 ≠ sampleDoc.fields := by
  intro hcontra
  have h2 := congrArg (List.map (fun e : String × IndexFieldDef Int Int =>
    match e.2 with
    | IndexFieldDef.ded fd => fd.path
    | IndexFieldDef.other => [])) hcontra
  simp [init_prepare, init_prepare_go, sampleDoc, sampleField] at h2

/-- A document whose (user-overridden) `should_index_object` rejects every
row. -/
def sampleDocExcluding : DocTypeModel Int Int :=
  { sampleDoc with fields := [], should_index_object := fun _ => false }

/-- C6 counterexample: serial `update` on one model instance does NOT
always produce exactly one action descriptor — with `should_index_object`
overridden to reject the row, zero descriptors are produced and the single
blocking bulk call carries an empty action list. -/
theorem update_serial_excluded_row_cex :
    (DocType.update sampleDocExcluding sampleClient 0 (Thing.one (5 : Int)) "index" false
        none none).bulk_calls = [([], none, some true)]
    ∧ ¬ ((_get_actions sampleDocExcluding [(5 : Int)] "index").length = 1) :=
  ⟨rfl, by decide⟩

/-- C6 witness: the amended serial-single-row theorem instantiated at the
concrete sample document, client, state 0 and row 5. -/
theorem update_serial_single_witness :
    _get_actions sampleDoc [(5 : Int)] "index" = [_prepare_action sampleDoc 5 "index"]
    ∧ (DocType.update sampleDoc sampleClient 0 (Thing.one (5 : Int)) "index" false none
          none).bulk_calls
        = [([_prepare_action sampleDoc 5 "index"], none, resolveRefresh sampleDoc none)]
    ∧ (DocType.update sampleDoc sampleClient 0 (Thing.one (5 : Int)) "index" false none
          none).parallel_calls = []
    ∧ (DocType.update sampleDoc sampleClient 0 (Thing.one (5 : Int)) "index" false none
          none).signals
        = [{ sender := sampleDoc.class_name, doc := sampleDoc,
             actions := [_prepare_action sampleDoc 5 "index"],
             response := (sampleClient.bulk 0 [_prepare_action sampleDoc 5 "index"] none
               (resolveRefresh sampleDoc none)).1 }]
    ∧ (DocType.update sampleDoc sampleClient 0 (Thing.one (5 : Int)) "index" false none
          none).response
        = (sampleClient.bulk 0 [_prepare_action sampleDoc 5 "index"] none
            (resolveRefresh sampleDoc none)).1 :=
  update_serial_single_spec sampleDoc sampleClient 0 5 none none rfl

/-- A document declaring one `DEDField` (`title`) and one non-`DEDField`
entry (`meta`). -/
def sampleDocMixed : DocTypeModel Int Int :=
  { sampleDoc with
      fields := [("title", IndexFieldDef.ded sampleField), ("meta", IndexFieldDef.other)] }

/-- C10 witness: the non-`DEDField` entry `meta` is skipped — no prepared
triple carries its name and `prepare` never returns it as a key. -/
theorem init_prepare_skips_non_ded_witness :
    (∀ t ∈ (init_prepare sampleDocMixed).1, t.1 ≠ "meta")
    ∧ ∀ object_instance,
        (prepare (init_prepare sampleDocMixed).1 object_instance).lookup "meta" = none :=
  init_prepare_skips_non_ded sampleDocMixed "meta" (by decide)
    (List.mem_cons_of_mem _ (List.mem_cons_self _ _))
